import Mathlib

/-!
Verification of the calendar-layout engine in `generate_calendar.py`
(repository tiels_calendar).

The Python source is shallowly embedded: pure functions become Lean
functions over `Nat`/`Int`/`List`.  A grid cell `(day, month_offset)` is a
`Nat × Int` with `month_offset ∈ {-1, 0, 1}` (`-1` = previous month,
`0` = current month, `1` = next month), exactly as in the source.
-/

namespace TielsCalendar

/-! ### Proleptic Gregorian helpers (Python `calendar.monthrange`)

`calendar.monthrange(year, month)` returns the weekday of day 1
(Monday = 0 … Sunday = 6) and the number of days of the month, using
proleptic Gregorian rules via `datetime.date`.  We embed those rules:
leap year iff divisible by 4 and (not by 100 unless by 400); the weekday
is obtained from the day ordinal, with ordinal 1 = 0001-01-01 = Monday.
Valid for `year ≥ 1`, `1 ≤ month ≤ 12` (outside that range the Python
library raises, so all theorems carry these hypotheses). -/

def isLeap (year : Nat) : Bool :=
  year % 4 = 0 && (year % 100 ≠ 0 || year % 400 = 0)

def daysInMonth (year month : Nat) : Nat :=
  if month = 2 then (if isLeap year then 29 else 28)
  else if month = 4 ∨ month = 6 ∨ month = 9 ∨ month = 11 then 30
  else 31

/-- Days in all years before `year` (proleptic Gregorian). -/
def daysBeforeYear (year : Nat) : Nat :=
  365 * (year - 1) + (year - 1) / 4 - (year - 1) / 100 + (year - 1) / 400

/-- Days in months `1 .. month-1` of `year`. -/
def daysBeforeMonth (year month : Nat) : Nat :=
  ((List.range (month - 1)).map (fun i => daysInMonth year (i + 1))).sum

/-- Ordinal of date (year, month, day): 0001-01-01 has ordinal 1,
matching Python `datetime.date.toordinal`. -/
def dateOrdinal (year month day : Nat) : Nat :=
  daysBeforeYear year + daysBeforeMonth year month + day

/-- Weekday of a date, Monday = 0 … Sunday = 6
(Python `datetime.date.weekday`). -/
def dayOfWeek (year month day : Nat) : Nat :=
  (dateOrdinal year month day - 1) % 7

/-- First component of `calendar.monthrange`: weekday of day 1. -/
def firstDow (year month : Nat) : Nat :=
  dayOfWeek year month 1

/-! ### Grid Builder (`build_simple_calendar`, lines 166-204) -/

/-- Helper for `chunkWeeks`: structural recursion on a fuel bound (the
fuel is only a termination device; `cells.length` fuel always suffices). -/
def chunkWeeksAux : Nat → List (Nat × Int) → List (List (Nat × Int))
  | _, [] => []
  | 0, _ :: _ => []
  | fuel + 1, c :: rest => ((c :: rest).take 7) :: chunkWeeksAux fuel ((c :: rest).drop 7)

/-- The `weeks.append(cells[i:i+7])` loop of `build_simple_calendar`:
split the cell list into chunks of 7. -/
def chunkWeeks (cells : List (Nat × Int)) : List (List (Nat × Int)) :=
  chunkWeeksAux cells.length cells

/-- Day count of the month preceding `(year, month)`
(the `prev_days` computation of `build_simple_calendar`). -/
def prevDays (year month : Nat) : Nat :=
  if month = 1 then daysInMonth (year - 1) 12 else daysInMonth year (month - 1)

/-- Number of next-month cells the `while len(cells) % 7 != 0` loop of
`build_simple_calendar` appends when `s` cells are already present. -/
def padCount (s : Nat) : Nat :=
  (7 - s % 7) % 7

/-- The flat `cells` list of `build_simple_calendar(year, month)`:
previous-month fill cells, then the current month's days, then
next-month cells until the count is a multiple of 7. -/
def calendarCells (year month : Nat) : List (Nat × Int) :=
  (List.range (firstDow year month)).map
      (fun i => (prevDays year month - firstDow year month + 1 + i, -1))
    ++ (List.range (daysInMonth year month)).map (fun d => (d + 1, 0))
    ++ (List.range (padCount (firstDow year month + daysInMonth year month))).map
      (fun i => (i + 1, 1))

/-- `build_simple_calendar(year, month)`: the flat cell list split into
weeks of 7. -/
def build_simple_calendar (year month : Nat) : List (List (Nat × Int)) :=
  chunkWeeks (calendarCells year month)

/-! ### Basic facts about `chunkWeeks` -/

theorem chunkWeeksAux_flatten (fuel : Nat) (cells : List (Nat × Int))
    (hf : cells.length ≤ fuel) : (chunkWeeksAux fuel cells).flatten = cells := by
  induction fuel generalizing cells with
  | zero =>
    cases cells with
    | nil => rfl
    | cons c rest => simp at hf
  | succ fuel ih =>
    cases cells with
    | nil => rfl
    | cons c rest =>
      simp only [chunkWeeksAux, List.flatten_cons]
      rw [ih ((c :: rest).drop 7) (by simp only [List.length_drop, List.length_cons] at hf ⊢; omega)]
      exact List.take_append_drop 7 (c :: rest)

theorem chunkWeeks_flatten (cells : List (Nat × Int)) :
    (chunkWeeks cells).flatten = cells :=
  chunkWeeksAux_flatten cells.length cells le_rfl

theorem chunkWeeksAux_length (fuel : Nat) (cells : List (Nat × Int))
    (hf : cells.length ≤ fuel) (h7 : cells.length % 7 = 0) :
    (chunkWeeksAux fuel cells).length = cells.length / 7 := by
  induction fuel generalizing cells with
  | zero =>
    cases cells with
    | nil => rfl
    | cons c rest => simp at hf
  | succ fuel ih =>
    cases cells with
    | nil => rfl
    | cons c rest =>
      simp only [chunkWeeksAux, List.length_cons]
      rw [ih ((c :: rest).drop 7)
        (by simp only [List.length_drop, List.length_cons] at hf ⊢; omega)
        (by simp only [List.length_drop, List.length_cons] at h7 ⊢; omega)]
      simp only [List.length_drop, List.length_cons] at h7 ⊢
      omega

theorem chunkWeeks_length (cells : List (Nat × Int)) (h7 : cells.length % 7 = 0) :
    (chunkWeeks cells).length = cells.length / 7 :=
  chunkWeeksAux_length cells.length cells le_rfl h7

theorem chunkWeeksAux_mem_length (fuel : Nat) (cells : List (Nat × Int))
    (hf : cells.length ≤ fuel) (h7 : cells.length % 7 = 0)
    (w : List (Nat × Int)) (hw : w ∈ chunkWeeksAux fuel cells) : w.length = 7 := by
  induction fuel generalizing cells with
  | zero =>
    cases cells with
    | nil => simp [chunkWeeksAux] at hw
    | cons c rest => simp at hf
  | succ fuel ih =>
    cases cells with
    | nil => simp [chunkWeeksAux] at hw
    | cons c rest =>
      simp only [chunkWeeksAux, List.mem_cons] at hw
      rcases hw with hw | hw
      · subst hw
        simp only [List.length_take, List.length_cons] at h7 ⊢
        omega
      · exact ih ((c :: rest).drop 7)
          (by simp only [List.length_drop, List.length_cons] at hf ⊢; omega)
          (by simp only [List.length_drop, List.length_cons] at h7 ⊢; omega) hw

theorem chunkWeeks_mem_length (cells : List (Nat × Int)) (h7 : cells.length % 7 = 0)
    (w : List (Nat × Int)) (hw : w ∈ chunkWeeks cells) : w.length = 7 :=
  chunkWeeksAux_mem_length cells.length cells le_rfl h7 w hw

/-! ### C1: shape of the flat cell list -/

theorem padCount_total_mod (s : Nat) : (s + padCount s) % 7 = 0 := by
  unfold padCount
  omega

theorem calendarCells_length (year month : Nat) :
    (calendarCells year month).length =
      firstDow year month + daysInMonth year month
        + padCount (firstDow year month + daysInMonth year month) := by
  simp [calendarCells]
  omega

theorem calendarCells_length_mod (year month : Nat) :
    (calendarCells year month).length % 7 = 0 := by
  rw [calendarCells_length]
  exact padCount_total_mod _

theorem calendarCells_filter_current (year month : Nat) :
    (((calendarCells year month).filter (fun c => c.2 == 0)).map Prod.fst)
      = List.range' 1 (daysInMonth year month) := by
  unfold calendarCells
  rw [List.filter_append, List.filter_append]
  have hprev : ((List.range (firstDow year month)).map
      (fun i => ((prevDays year month - firstDow year month + 1 + i : Nat), (-1 : Int)))).filter
      (fun c => c.2 == 0) = [] := by
    rw [List.filter_eq_nil_iff]
    intro a ha
    simp only [List.mem_map, List.mem_range] at ha
    obtain ⟨i, _, rfl⟩ := ha
    simp
  have hnext : ((List.range (padCount (firstDow year month + daysInMonth year month))).map
      (fun i => ((i + 1 : Nat), (1 : Int)))).filter (fun c => c.2 == 0) = [] := by
    rw [List.filter_eq_nil_iff]
    intro a ha
    simp only [List.mem_map, List.mem_range] at ha
    obtain ⟨i, _, rfl⟩ := ha
    simp
  have hcur : ((List.range (daysInMonth year month)).map
      (fun d => ((d + 1 : Nat), (0 : Int)))).filter (fun c => c.2 == 0)
      = (List.range (daysInMonth year month)).map (fun d => ((d + 1 : Nat), (0 : Int))) := by
    rw [List.filter_eq_self]
    intro a ha
    simp only [List.mem_map, List.mem_range] at ha
    obtain ⟨i, _, rfl⟩ := ha
    simp
  rw [hprev, hnext, hcur]
  simp only [List.nil_append, List.append_nil, List.map_map]
  rw [List.range'_eq_map_range]
  apply List.map_congr_left
  intro i _
  simp [Nat.add_comm]

theorem daysInMonth_bounds (year month : Nat) :
    28 ≤ daysInMonth year month ∧ daysInMonth year month ≤ 31 := by
  unfold daysInMonth
  split_ifs <;> omega

theorem firstDow_lt (year month : Nat) : firstDow year month < 7 :=
  Nat.mod_lt _ (by omega)

theorem padCount_lt (s : Nat) : padCount s < 7 := by
  unfold padCount
  omega

/-- C1: for every year ≥ 1 and month in [1,12], the flat cell list of the
grid has a length that is a multiple of 7 and at least the month's day
count, and the CURRENT-offset (`month_offset = 0`) cells taken in grid
order carry exactly the days `1 .. daysInMonth`, with no gaps and no
repeats. -/
theorem claim_C1 (year month : Nat) (hy : 1 ≤ year)
    (hm1 : 1 ≤ month) (hm2 : month ≤ 12) :
    (build_simple_calendar year month).flatten.length % 7 = 0 ∧
    daysInMonth year month ≤ (build_simple_calendar year month).flatten.length ∧
    (((build_simple_calendar year month).flatten.filter (fun c => c.2 == 0)).map Prod.fst)
      = List.range' 1 (daysInMonth year month) := by
  unfold build_simple_calendar
  rw [chunkWeeks_flatten]
  refine ⟨calendarCells_length_mod year month, ?_,
    calendarCells_filter_current year month⟩
  rw [calendarCells_length]
  omega

/-- Witness for C1 at (2026, 3). -/
theorem claim_C1_witness :
    (1 ≤ 2026 ∧ 1 ≤ 3 ∧ 3 ≤ 12) ∧
    ((build_simple_calendar 2026 3).flatten.length % 7 = 0 ∧
     daysInMonth 2026 3 ≤ (build_simple_calendar 2026 3).flatten.length ∧
     (((build_simple_calendar 2026 3).flatten.filter (fun c => c.2 == 0)).map Prod.fst)
       = List.range' 1 (daysInMonth 2026 3)) :=
  ⟨⟨by decide, by decide, by decide⟩,
   claim_C1 2026 3 (by decide) (by decide) (by decide)⟩

/-! ### C2: week shape and number of weeks

The spec says a Grid always has 5 or 6 weeks.  That fails for a 28-day
February starting on Monday (e.g. February 2021), which fills exactly 4
weeks; the number of weeks is in fact always 4, 5 or 6. -/

/-- C2 (amended): every week of the grid has exactly 7 cells, and the
number of weeks is between 4 and 6 (the source also produces 4-week
grids, e.g. February 2021). -/
theorem claim_C2 (year month : Nat) (hy : 1 ≤ year)
    (hm1 : 1 ≤ month) (hm2 : month ≤ 12) :
    (∀ w ∈ build_simple_calendar year month, w.length = 7) ∧
    4 ≤ (build_simple_calendar year month).length ∧
    (build_simple_calendar year month).length ≤ 6 := by
  unfold build_simple_calendar
  have h7 := calendarCells_length_mod year month
  refine ⟨fun w hw => chunkWeeks_mem_length _ h7 w hw, ?_⟩
  rw [chunkWeeks_length _ h7, calendarCells_length]
  have hd := daysInMonth_bounds year month
  have hf := firstDow_lt year month
  have hp := padCount_lt (firstDow year month + daysInMonth year month)
  have := padCount_total_mod (firstDow year month + daysInMonth year month)
  omega

/-- Witness for C2 at (2026, 3). -/
theorem claim_C2_witness :
    (1 ≤ 2026 ∧ 1 ≤ 3 ∧ 3 ≤ 12) ∧
    ((∀ w ∈ build_simple_calendar 2026 3, w.length = 7) ∧
     4 ≤ (build_simple_calendar 2026 3).length ∧
     (build_simple_calendar 2026 3).length ≤ 6) :=
  ⟨⟨by decide, by decide, by decide⟩,
   claim_C2 2026 3 (by decide) (by decide) (by decide)⟩

/-- Counterexample to C2 as stated: the grid of February 2021 (month of
28 days starting on a Monday) has 4 weeks, not 5 or 6. -/
theorem claim_C2_counterexample :
    ¬((build_simple_calendar 2021 2).length = 5 ∨
      (build_simple_calendar 2021 2).length = 6) := by
  decide

/-! ### Visibility Policy (`should_show_adjacent_weekends`, lines 316-331,
and `should_show_cell`, lines 334-348) -/

/-- `is_weekend(dow)`: Saturday (5) or Sunday (6). -/
def is_weekend (dow : Nat) : Bool :=
  dow ≥ 5

/-- `should_show_adjacent_weekends(year, month)`: returns
`(show_prev, show_next)`. -/
def should_show_adjacent_weekends (year month : Nat) : Bool × Bool :=
  let first_dow := firstDow year month
  let num_days := daysInMonth year month
  let last_dow := (first_dow + num_days - 1) % 7
  (first_dow == 6, last_dow == 4 || last_dow == 5)

/-- `should_show_cell(dow, month_offset, show_prev_weekends,
show_next_weekends)`. -/
def should_show_cell (dow : Nat) (month_offset : Int)
    (show_prev_weekends show_next_weekends : Bool) : Bool :=
  if month_offset == 0 then true
  else if !(is_weekend dow) then false
  else if month_offset == -1 then show_prev_weekends
  else if month_offset == 1 then show_next_weekends
  else false

/-- The weekday of day `d` of the month is the first weekday advanced by
`d - 1`, reduced mod 7 (this justifies the source's `last_dow`
computation). -/
theorem dayOfWeek_eq_firstDow_add (year month d : Nat) (hd : 1 ≤ d) :
    dayOfWeek year month d = (firstDow year month + d - 1) % 7 := by
  unfold firstDow dayOfWeek dateOrdinal
  omega

/-- C3: `show_prev` is true iff day 1 of the month is a Sunday (weekday
6), and `show_next` is true iff the last day of the month is a Friday (4)
or Saturday (5). -/
theorem claim_C3 (year month : Nat) (hy : 1 ≤ year)
    (hm1 : 1 ≤ month) (hm2 : month ≤ 12) :
    ((should_show_adjacent_weekends year month).1 = true ↔
      dayOfWeek year month 1 = 6) ∧
    ((should_show_adjacent_weekends year month).2 = true ↔
      (dayOfWeek year month (daysInMonth year month) = 4 ∨
       dayOfWeek year month (daysInMonth year month) = 5)) := by
  have h1 : dayOfWeek year month 1 = firstDow year month := rfl
  have hlast := dayOfWeek_eq_firstDow_add year month (daysInMonth year month)
    (by have := daysInMonth_bounds year month; omega)
  unfold should_show_adjacent_weekends
  constructor
  · simp only [h1, beq_iff_eq]
  · simp only [hlast, Bool.or_eq_true, beq_iff_eq]

/-- Witness for C3 at (2026, 3): March 2026 starts on a Sunday and ends
on a Tuesday. -/
theorem claim_C3_witness :
    (1 ≤ 2026 ∧ 1 ≤ 3 ∧ 3 ≤ 12) ∧
    (((should_show_adjacent_weekends 2026 3).1 = true ↔
       dayOfWeek 2026 3 1 = 6) ∧
     ((should_show_adjacent_weekends 2026 3).2 = true ↔
       (dayOfWeek 2026 3 (daysInMonth 2026 3) = 4 ∨
        dayOfWeek 2026 3 (daysInMonth 2026 3) = 5))) :=
  ⟨⟨by decide, by decide, by decide⟩,
   claim_C3 2026 3 (by decide) (by decide) (by decide)⟩

/-- C4: truth table of `should_show_cell` for weekday indexes 0-6 and the
three month offsets: CURRENT (0) cells always show; PREV (-1) cells show
iff the weekday is Saturday/Sunday and `show_prev` holds; NEXT (1) cells
show iff the weekday is Saturday/Sunday and `show_next` holds. -/
theorem claim_C4 (dow : Nat) (hdow : dow < 7) (sp sn : Bool) :
    should_show_cell dow 0 sp sn = true ∧
    (should_show_cell dow (-1) sp sn = true ↔ ((dow = 5 ∨ dow = 6) ∧ sp = true)) ∧
    (should_show_cell dow 1 sp sn = true ↔ ((dow = 5 ∨ dow = 6) ∧ sn = true)) := by
  have h : ∀ d, d < 7 → ∀ sp sn : Bool,
      should_show_cell d 0 sp sn = true ∧
      (should_show_cell d (-1) sp sn = true ↔ ((d = 5 ∨ d = 6) ∧ sp = true)) ∧
      (should_show_cell d 1 sp sn = true ↔ ((d = 5 ∨ d = 6) ∧ sn = true)) := by
    decide
  exact h dow hdow sp sn

/-- Witness for C4 at dow = 5 (Saturday). -/
theorem claim_C4_witness :
    5 < 7 ∧
    (should_show_cell 5 0 true false = true ∧
     (should_show_cell 5 (-1) true false = true ↔ ((5 = 5 ∨ 5 = 6) ∧ true = true)) ∧
     (should_show_cell 5 1 true false = true ↔ ((5 = 5 ∨ 5 = 6) ∧ false = true))) :=
  ⟨by decide, claim_C4 5 (by decide) true false⟩

/-! ### Text segmentation (`is_latin_char`, lines 253-256, and
`split_text_segments`, lines 259-280)

Strings are embedded as `List Char`.  In the Python loop the running
class `current_is_latin` starts as `None` and is set to the class of the
first character before any comparison, and the running buffer then holds
that first character; `split_text_segments` below performs exactly that
first step and hands the rest of the text to `splitLoop`, whose cases are
the loop body (class change: flush the buffer if non-empty, restart from
the current character; same class: extend the buffer) and the final
`if current:` flush. -/

/-- `is_latin_char(ch)`: code point below the CJK block start (0x3000) or
within the fullwidth-forms block (0xFF00-0xFFEF). -/
def is_latin_char (ch : Char) : Bool :=
  ch.toNat < 0x3000 || (0xFF00 ≤ ch.toNat && ch.toNat ≤ 0xFFEF)

/-- Loop body of `split_text_segments`: `current` is the running buffer
(always non-empty when entered from `split_text_segments`), `curLatin`
its class. -/
def splitLoop : List Char → List Char → Bool → List (List Char × Bool)
  | [], current, curLatin =>
      if current = [] then [] else [(current, curLatin)]
  | ch :: rest, current, curLatin =>
      if is_latin_char ch != curLatin then
        (if current = [] then [] else [(current, curLatin)])
          ++ splitLoop rest [ch] (is_latin_char ch)
      else
        splitLoop rest (current ++ [ch]) curLatin

/-- `split_text_segments(text)`. -/
def split_text_segments : List Char → List (List Char × Bool)
  | [] => []
  | ch :: rest => splitLoop rest [ch] (is_latin_char ch)

/-- Number of class-boundary transitions in a list of per-character
classes (adjacent positions with different classes). -/
def transitions : List Bool → Nat
  | [] => 0
  | [_] => 0
  | a :: b :: t => (if a ≠ b then 1 else 0) + transitions (b :: t)

theorem splitLoop_flatten (cs : List Char) (current : List Char) (curLatin : Bool) :
    ((splitLoop cs current curLatin).map Prod.fst).flatten = current ++ cs := by
  induction cs generalizing current curLatin with
  | nil =>
    by_cases h : current = [] <;> simp [splitLoop, h]
  | cons ch rest ih =>
    simp only [splitLoop]
    by_cases hcl : is_latin_char ch != curLatin
    · by_cases h : current = [] <;>
        simp [hcl, h, ih]
    · simp only [hcl, if_neg, Bool.not_eq_true, ite_false]
      rw [ih]
      simp

theorem splitLoop_seg_ne_nil (cs : List Char) (current : List Char) (curLatin : Bool) :
    ∀ seg ∈ splitLoop cs current curLatin, seg.1 ≠ [] := by
  induction cs generalizing current curLatin with
  | nil =>
    intro seg hseg
    by_cases h : current = []
    · simp [splitLoop, h] at hseg
    · rw [splitLoop, if_neg h] at hseg
      rw [List.mem_singleton] at hseg
      subst hseg
      exact h
  | cons ch rest ih =>
    intro seg hseg
    rw [splitLoop] at hseg
    by_cases hcl : is_latin_char ch != curLatin
    · rw [if_pos hcl, List.mem_append] at hseg
      rcases hseg with hseg | hseg
      · by_cases h : current = []
        · simp [h] at hseg
        · rw [if_neg h, List.mem_singleton] at hseg
          subst hseg
          exact h
      · exact ih _ _ seg hseg
    · rw [if_neg hcl] at hseg
      exact ih _ _ seg hseg

theorem splitLoop_uniform (cs : List Char) (current : List Char) (curLatin : Bool)
    (hcur : ∀ c ∈ current, is_latin_char c = curLatin) :
    ∀ seg ∈ splitLoop cs current curLatin, ∀ c ∈ seg.1, is_latin_char c = seg.2 := by
  induction cs generalizing current curLatin with
  | nil =>
    intro seg hseg
    by_cases h : current = []
    · simp [splitLoop, h] at hseg
    · rw [splitLoop, if_neg h, List.mem_singleton] at hseg
      subst hseg
      exact hcur
  | cons ch rest ih =>
    intro seg hseg
    rw [splitLoop] at hseg
    by_cases hcl : is_latin_char ch != curLatin
    · rw [if_pos hcl, List.mem_append] at hseg
      rcases hseg with hseg | hseg
      · by_cases h : current = []
        · simp [h] at hseg
        · rw [if_neg h, List.mem_singleton] at hseg
          subst hseg
          exact hcur
      · exact ih _ _ (by intro c hc; simp at hc; simp [hc]) seg hseg
    · rw [if_neg hcl] at hseg
      refine ih _ _ ?_ seg hseg
      intro c hc
      simp only [List.mem_append, List.mem_singleton] at hc
      rcases hc with hc | hc
      · exact hcur c hc
      · subst hc
        simpa using hcl

theorem splitLoop_head_snd (cs : List Char) (current : List Char) (curLatin : Bool)
    (hne : current ≠ []) :
    (splitLoop cs current curLatin).head?.map Prod.snd = some curLatin := by
  induction cs generalizing current curLatin with
  | nil => simp [splitLoop, hne]
  | cons ch rest ih =>
    simp only [splitLoop]
    by_cases hcl : is_latin_char ch != curLatin
    · simp [hcl, hne]
    · simp only [hcl, ite_false]
      exact ih _ _ (by simp)

theorem splitLoop_chain (cs : List Char) (current : List Char) (curLatin : Bool)
    (hne : current ≠ []) :
    List.Chain' (fun a b => a.2 ≠ b.2) (splitLoop cs current curLatin) := by
  induction cs generalizing current curLatin with
  | nil =>
    rw [splitLoop, if_neg hne]
    exact List.chain'_singleton _
  | cons ch rest ih =>
    rw [splitLoop]
    by_cases hcl : is_latin_char ch != curLatin
    · have hcl' : curLatin ≠ is_latin_char ch := by
        intro hcontra; rw [hcontra] at hcl; simp at hcl
      rw [if_pos hcl, if_neg hne, List.singleton_append, List.chain'_cons']
      refine ⟨?_, ih _ _ (by simp)⟩
      intro b hb
      have hhead := splitLoop_head_snd rest [ch] (is_latin_char ch) (by simp)
      rw [Option.mem_def] at hb
      rw [hb] at hhead
      have hb2 : b.2 = is_latin_char ch := by simpa using hhead
      show (current, curLatin).2 ≠ b.2
      simp only [hb2]
      exact hcl'
    · rw [if_neg hcl]
      exact ih _ _ (by simp)

theorem splitLoop_length (cs : List Char) (current : List Char) (curLatin : Bool)
    (hne : current ≠ []) :
    (splitLoop cs current curLatin).length
      = transitions (curLatin :: cs.map is_latin_char) + 1 := by
  induction cs generalizing current curLatin with
  | nil =>
    rw [splitLoop, if_neg hne]
    simp [transitions]
  | cons ch rest ih =>
    rw [splitLoop, List.map_cons]
    by_cases hcl : is_latin_char ch != curLatin
    · have hcl' : curLatin ≠ is_latin_char ch := by
        intro hcontra; rw [hcontra] at hcl; simp at hcl
      rw [if_pos hcl, if_neg hne, List.singleton_append, List.length_cons,
        ih [ch] (is_latin_char ch) (by simp), transitions]
      simp only [ne_eq, hcl', not_false_iff, if_true]
      omega
    · have hcl' : curLatin = is_latin_char ch := by
        have h2 : is_latin_char ch = curLatin := by simpa using hcl
        exact h2.symm
      rw [if_neg hcl, ih (current ++ [ch]) curLatin (by simp), transitions]
      simp [hcl']

/-- C5: for every non-empty character list, `split_text_segments` returns
segments whose texts concatenate back to the input, are each non-empty
and uniform in Latin class, alternate in class between neighbours, and
number exactly one more than the class-boundary transitions of the
input. -/
theorem claim_C5 (text : List Char) (hne : text ≠ []) :
    (((split_text_segments text).map Prod.fst).flatten = text) ∧
    (∀ seg ∈ split_text_segments text,
       seg.1 ≠ [] ∧ ∀ c ∈ seg.1, is_latin_char c = seg.2) ∧
    List.Chain' (fun a b => a.2 ≠ b.2) (split_text_segments text) ∧
    (split_text_segments text).length = transitions (text.map is_latin_char) + 1 := by
  cases text with
  | nil => exact absurd rfl hne
  | cons ch rest =>
    simp only [split_text_segments]
    refine ⟨splitLoop_flatten rest [ch] (is_latin_char ch), ?_, ?_, ?_⟩
    · intro seg hseg
      exact ⟨splitLoop_seg_ne_nil rest [ch] (is_latin_char ch) seg hseg,
        splitLoop_uniform rest [ch] (is_latin_char ch) (by simp) seg hseg⟩
    · exact splitLoop_chain rest [ch] (is_latin_char ch) (by simp)
    · rw [splitLoop_length rest [ch] (is_latin_char ch) (by simp)]
      rfl

/-- Witness for C5 on the mixed-script text "ab予約1". -/
theorem claim_C5_witness :
    (['a', 'b', '予', '約', '1'] : List Char) ≠ [] ∧
    ((((split_text_segments ['a', 'b', '予', '約', '1']).map Prod.fst).flatten
        = ['a', 'b', '予', '約', '1']) ∧
     (∀ seg ∈ split_text_segments ['a', 'b', '予', '約', '1'],
        seg.1 ≠ [] ∧ ∀ c ∈ seg.1, is_latin_char c = seg.2) ∧
     List.Chain' (fun a b => a.2 ≠ b.2)
       (split_text_segments ['a', 'b', '予', '約', '1']) ∧
     (split_text_segments ['a', 'b', '予', '約', '1']).length
       = transitions (['a', 'b', '予', '約', '1'].map is_latin_char) + 1) :=
  ⟨by decide, claim_C5 ['a', 'b', '予', '約', '1'] (by decide)⟩

/-! ### Schedule resolver (`get_hours`, lines 223-231) and the hours
rendering of the Page Composer (`generate_calendar`, lines 538-546) -/

/-- The configuration fields the schedule resolver reads.  Python stores
the schedules as dicts keyed by `str(day)`; we embed them as association
lists with `List.lookup`, which matches `dict.get(key, None)` on the
unique-key dicts produced by JSON parsing. -/
structure Config where
  schedule : List (String × String)
  prev_month_schedule : List (String × String)
  next_month_schedule : List (String × String)
  holidays : List Nat
  prev_month_holidays : List Nat
  next_month_holidays : List Nat

/-- `get_hours(day, month_offset, config)`. -/
def get_hours (day : Nat) (month_offset : Int) (config : Config) : Option String :=
  if month_offset == 0 then config.schedule.lookup (toString day)
  else if month_offset == -1 then config.prev_month_schedule.lookup (toString day)
  else if month_offset == 1 then config.next_month_schedule.lookup (toString day)
  else none

/-- `is_holiday(day, month_offset, config)` (lines 212-220). -/
def is_holiday (day : Nat) (month_offset : Int) (config : Config) : Bool :=
  if month_offset == 0 then day ∈ config.holidays
  else if month_offset == -1 then day ∈ config.prev_month_holidays
  else if month_offset == 1 then day ∈ config.next_month_holidays
  else false

/-- What the Page Composer draws in the hours position of a visible cell
(lines 538-546): the hours string when present; otherwise the `"-"`
closed marker (in the gray closed-day color) for CURRENT cells, and
nothing for other cells. -/
inductive HoursRender where
  | hoursText : String → HoursRender
  | closedMarker : HoursRender
  | nothing : HoursRender
deriving DecidableEq

/-- Lines 538-546 of `generate_calendar`: `hours = get_hours(...)`; if
present draw it, `elif month_offset == 0` draw the closed marker, else
draw nothing. -/
def render_hours (day : Nat) (month_offset : Int) (config : Config) : HoursRender :=
  match get_hours day month_offset config with
  | some h => .hoursText h
  | none => if month_offset == 0 then .closedMarker else .nothing

/-- C7: a CURRENT-month day absent from `schedule` resolves to no hours
and renders the closed marker; a PREV/NEXT day absent from its mapping
renders nothing; the closed marker is never rendered at a non-CURRENT
offset.  (`get_hours` and `render_hours` are total, so absence is never
an error.) -/
theorem claim_C7 (day : Nat) (config : Config) :
    (config.schedule.lookup (toString day) = none →
      get_hours day 0 config = none ∧ render_hours day 0 config = .closedMarker) ∧
    (config.prev_month_schedule.lookup (toString day) = none →
      get_hours day (-1) config = none ∧ render_hours day (-1) config = .nothing) ∧
    (config.next_month_schedule.lookup (toString day) = none →
      get_hours day 1 config = none ∧ render_hours day 1 config = .nothing) ∧
    (∀ month_offset : Int, month_offset ≠ 0 →
      render_hours day month_offset config ≠ .closedMarker) := by
  refine ⟨?_, ?_, ?_, ?_⟩
  · intro h
    have hg : get_hours day 0 config = none := by simp [get_hours, h]
    exact ⟨hg, by simp [render_hours, hg]⟩
  · intro h
    have hg : get_hours day (-1) config = none := by simp [get_hours, h]
    exact ⟨hg, by simp [render_hours, hg]⟩
  · intro h
    have hg : get_hours day 1 config = none := by simp [get_hours, h]
    exact ⟨hg, by simp [render_hours, hg]⟩
  · intro off hoff
    unfold render_hours
    cases hg : get_hours day off config with
    | some h => simp
    | none =>
      have : (off == 0) = false := by simpa using hoff
      simp [this]

/-- Witness for C7 on a config whose schedules do not mention day 5. -/
theorem claim_C7_witness :
    ((⟨[("1", "15-21")], [], [], [20], [], []⟩ : Config).schedule.lookup
        (toString 5) = none ∧
     (-1 : Int) ≠ 0) ∧
    ((get_hours 5 0 ⟨[("1", "15-21")], [], [], [20], [], []⟩ = none ∧
      render_hours 5 0 ⟨[("1", "15-21")], [], [], [20], [], []⟩ = .closedMarker) ∧
     render_hours 5 (-1) ⟨[("1", "15-21")], [], [], [20], [], []⟩ ≠ .closedMarker) :=
  ⟨⟨by decide, by decide⟩,
   ⟨(claim_C7 5 ⟨[("1", "15-21")], [], [], [20], [], []⟩).1 (by decide),
    (claim_C7 5 ⟨[("1", "15-21")], [], [], [20], [], []⟩).2.2.2 (-1) (by decide)⟩⟩

/-! ### Month-number prefix decision (`get_month_prefix`, lines 234-242,
and `generate_calendar`, lines 496-507) -/

/-- `get_month_prefix(month_offset, year, month)`. -/
def get_month_prefix (month_offset : Int) (year month : Nat) : String :=
  if month_offset == -1 then toString (if month > 1 then month - 1 else 12)
  else if month_offset == 1 then toString (if month < 12 then month + 1 else 1)
  else ""

/-- Lines 499-507 of `generate_calendar`: whether a visible cell gets a
month-number prefix before its day number, and which prefix text.
PREV/NEXT cells always do; a CURRENT cell does iff it is in the first
grid row and the previous month's weekend is shown. -/
def day_prefix (month_offset : Int) (row_idx : Nat)
    (show_prev_weekends : Bool) (year month : Nat) : Bool × String :=
  if month_offset != 0 then (true, get_month_prefix month_offset year month)
  else if row_idx == 0 && show_prev_weekends then (true, toString month)
  else (false, "")

/-- C9: PREV and NEXT cells always receive the month-number prefix; a
CURRENT cell receives it iff it lies in the first grid row and
`show_prev_weekends` is true — the decision does not depend on the cell's
column, so it applies to every CURRENT cell of that row. -/
theorem claim_C9 (row_idx : Nat) (show_prev_weekends : Bool) (year month : Nat) :
    ( day_prefix (-1) row_idx show_prev_weekends year month).1 = true ∧
    ( day_prefix 1 row_idx show_prev_weekends year month).1 = true ∧
    (( day_prefix 0 row_idx show_prev_weekends year month).1 = true ↔
      (row_idx = 0 ∧ show_prev_weekends = true)) := by
  refine ⟨rfl, rfl, ?_⟩
  unfold day_prefix
  by_cases h0 : row_idx = 0 <;> by_cases hs : show_prev_weekends <;>
    simp [h0, hs]

/-! ### Event label wrapping (`wrap_event_text`, lines 375-391)

The Python function measures candidate lines with
`draw.textbbox(..., font=...)`; we abstract that collaborator as an
arbitrary width function `measure : List Char → Int`. -/

/-- Loop body of `wrap_event_text`: `current` is the line being built. -/
def wrapLoop (measure : List Char → Int) (max_width : Int) :
    List Char → List Char → List (List Char)
  | [], current => if current = [] then [] else [current]
  | ch :: rest, current =>
      if measure (current ++ [ch]) > max_width ∧ current ≠ [] then
        current :: wrapLoop measure max_width rest [ch]
      else
        wrapLoop measure max_width rest (current ++ [ch])

/-- `wrap_event_text(text, font, max_width, draw)` with the font/draw
pair abstracted into `measure`. -/
def wrap_event_text (text : List Char) (measure : List Char → Int)
    (max_width : Int) : List (List Char) :=
  wrapLoop measure max_width text []

theorem wrapLoop_flatten (measure : List Char → Int) (max_width : Int)
    (cs current : List Char) :
    (wrapLoop measure max_width cs current).flatten = current ++ cs := by
  induction cs generalizing current with
  | nil =>
    by_cases h : current = [] <;> simp [wrapLoop, h]
  | cons ch rest ih =>
    rw [wrapLoop]
    by_cases h : measure (current ++ [ch]) > max_width ∧ current ≠ []
    · rw [if_pos h, List.flatten_cons, ih]
      simp
    · rw [if_neg h, ih]
      simp

theorem wrapLoop_lines_ne_nil (measure : List Char → Int) (max_width : Int)
    (cs current : List Char) :
    ∀ l ∈ wrapLoop measure max_width cs current, l ≠ [] := by
  induction cs generalizing current with
  | nil =>
    intro l hl
    by_cases h : current = []
    · simp [wrapLoop, h] at hl
    · rw [wrapLoop, if_neg h, List.mem_singleton] at hl
      subst hl
      exact h
  | cons ch rest ih =>
    intro l hl
    rw [wrapLoop] at hl
    by_cases h : measure (current ++ [ch]) > max_width ∧ current ≠ []
    · rw [if_pos h, List.mem_cons] at hl
      rcases hl with hl | hl
      · subst hl
        exact h.2
      · exact ih _ l hl
    · rw [if_neg h] at hl
      exact ih _ l hl

/-- C10: `wrap_event_text` loses and duplicates no characters —
concatenating the returned lines reproduces the input — every returned
line is non-empty, and non-empty input yields at least one line, for any
width-measuring function (in particular when a single character measures
wider than the maximum width). -/
theorem claim_C10 (text : List Char) (measure : List Char → Int) (max_width : Int) :
    (wrap_event_text text measure max_width).flatten = text ∧
    (∀ l ∈ wrap_event_text text measure max_width, l ≠ []) ∧
    (text ≠ [] → wrap_event_text text measure max_width ≠ []) := by
  refine ⟨wrapLoop_flatten measure max_width text [],
    wrapLoop_lines_ne_nil measure max_width text [], ?_⟩
  intro hne hcontra
  have := wrapLoop_flatten measure max_width text []
  rw [show wrap_event_text text measure max_width
        = wrapLoop measure max_width text [] from rfl] at hcontra
  rw [hcontra] at this
  simp at this
  exact hne this

/-- Witness for C10: two characters, each wider than the zero maximum
width, still come back as two one-character lines. -/
theorem claim_C10_witness :
    (['a', 'b'] : List Char) ≠ [] ∧
    (wrap_event_text ['a', 'b'] (fun l => (l.length : Int)) 0).flatten = ['a', 'b'] ∧
    wrap_event_text ['a', 'b'] (fun l => (l.length : Int)) 0 ≠ [] :=
  ⟨by decide,
   (claim_C10 ['a', 'b'] (fun l => (l.length : Int)) 0).1,
   (claim_C10 ['a', 'b'] (fun l => (l.length : Int)) 0).2.2 (by decide)⟩

/-! ### Event Box Layout (`find_event_position`, lines 351-372)

An event is a JSON object with keys `start`, optional `end`, `name`;
`event.get('end', start_day)` is embedded as an `Option Nat` field
defaulted with `getD`. -/

structure Event where
  start : Nat
  endDay : Option Nat
  name : String

/-- A cell counts toward the event: `month_offset == 0 and
start_day <= day <= end_day` (line 365). -/
def cellMatches (start_day end_day : Nat) (c : Nat × Int) : Prop :=
  c.2 = 0 ∧ start_day ≤ c.1 ∧ c.1 ≤ end_day

instance (start_day end_day : Nat) (c : Nat × Int) :
    Decidable (cellMatches start_day end_day c) := by
  unfold cellMatches
  infer_instance

/-- The inner `for col, (day, month_offset) in enumerate(week)` loop of
`find_event_position`: `acc` holds `(row_start_col, row_end_col)`; in the
source these are two variables that are `None` together, set to the first
matching column and the latest matching column. -/
def scanWeekAux (start_day end_day : Nat) :
    List (Nat × Int) → Nat → Option (Nat × Nat) → Option (Nat × Nat)
  | [], _, acc => acc
  | c :: rest, col, acc =>
      scanWeekAux start_day end_day rest (col + 1)
        (if cellMatches start_day end_day c then
          match acc with
          | none => some (col, col)
          | some (sc, _) => some (sc, col)
        else acc)

/-- One week's contribution to the positions list: `some (row_idx,
row_start_col, row_end_col)` when the week has a matching cell. -/
def eventWeekTriple (start_day end_day : Nat) (rw : Nat × List (Nat × Int)) :
    Option (Nat × Nat × Nat) :=
  match scanWeekAux start_day end_day rw.2 0 none with
  | some (sc, ec) => some (rw.1, sc, ec)
  | none => none

/-- `find_event_position(event, weeks, year, month)` (the `year`/`month`
arguments only feed a `first_dow` variable the source never uses). -/
def find_event_position (event : Event) (weeks : List (List (Nat × Int))) :
    List (Nat × Nat × Nat) :=
  weeks.enum.filterMap (eventWeekTriple event.start (event.endDay.getD event.start))

/-- C8: an event with no `end` key behaves exactly as if `end` were
`start`: the positions are identical. -/
theorem claim_C8 (d : Nat) (n : String) (weeks : List (List (Nat × Int))) :
    find_event_position ⟨d, none, n⟩ weeks
      = find_event_position ⟨d, some d, n⟩ weeks := rfl

/-! ### Characterizing the week scan: first and last matching column -/

/-- Specification device: the first matching column at or after `col`. -/
def firstMatchCol (start_day end_day : Nat) : List (Nat × Int) → Nat → Option Nat
  | [], _ => none
  | c :: rest, col =>
      if cellMatches start_day end_day c then some col
      else firstMatchCol start_day end_day rest (col + 1)

/-- Specification device: the last matching column at or after `col`. -/
def lastMatchCol (start_day end_day : Nat) : List (Nat × Int) → Nat → Option Nat
  | [], _ => none
  | c :: rest, col =>
      match lastMatchCol start_day end_day rest (col + 1) with
      | some k => some k
      | none => if cellMatches start_day end_day c then some col else none

theorem scanWeekAux_acc_some (s e : Nat) (cells : List (Nat × Int))
    (col a0 b0 : Nat) :
    scanWeekAux s e cells col (some (a0, b0))
      = some (a0, (lastMatchCol s e cells col).getD b0) := by
  induction cells generalizing col b0 with
  | nil => simp [scanWeekAux, lastMatchCol]
  | cons c rest ih =>
    rw [scanWeekAux, lastMatchCol]
    by_cases hc : cellMatches s e c
    · rw [if_pos hc]
      rw [ih]
      cases hl : lastMatchCol s e rest (col + 1) <;> simp [hl, hc]
    · rw [if_neg hc, ih]
      cases hl : lastMatchCol s e rest (col + 1) <;> simp [hl, hc]

theorem scanWeekAux_none (s e : Nat) (cells : List (Nat × Int)) (col : Nat) :
    scanWeekAux s e cells col none
      = match firstMatchCol s e cells col, lastMatchCol s e cells col with
        | some a, some b => some (a, b)
        | _, _ => none := by
  induction cells generalizing col with
  | nil => simp [scanWeekAux, firstMatchCol, lastMatchCol]
  | cons c rest ih =>
    rw [scanWeekAux, firstMatchCol, lastMatchCol]
    by_cases hc : cellMatches s e c
    · rw [if_pos hc, if_pos hc]
      rw [scanWeekAux_acc_some]
      cases hl : lastMatchCol s e rest (col + 1) <;> simp [hl, hc]
    · rw [if_neg hc, if_neg hc, ih]
      cases hf : firstMatchCol s e rest (col + 1) <;>
        cases hl : lastMatchCol s e rest (col + 1) <;> simp [hf, hl, hc]

theorem firstMatchCol_eq_none_iff (s e : Nat) (cells : List (Nat × Int)) (col : Nat) :
    firstMatchCol s e cells col = none ↔ ∀ c ∈ cells, ¬ cellMatches s e c := by
  induction cells generalizing col with
  | nil => simp [firstMatchCol]
  | cons c rest ih =>
    rw [firstMatchCol]
    by_cases hc : cellMatches s e c
    · simp [hc]
    · simp only [hc, if_false, ih (col + 1), List.mem_cons]
      constructor
      · intro h x hx
        rcases hx with hx | hx
        · subst hx; exact hc
        · exact h x hx
      · intro h x hx
        exact h x (Or.inr hx)

theorem lastMatchCol_eq_none_iff (s e : Nat) (cells : List (Nat × Int)) (col : Nat) :
    lastMatchCol s e cells col = none ↔ ∀ c ∈ cells, ¬ cellMatches s e c := by
  induction cells generalizing col with
  | nil => simp [lastMatchCol]
  | cons c rest ih =>
    rw [lastMatchCol]
    cases hl : lastMatchCol s e rest (col + 1) with
    | some k =>
      simp only []
      constructor
      · intro h; exact absurd h (by simp)
      · intro h
        have : ∀ c ∈ rest, ¬ cellMatches s e c := fun x hx => h x (List.mem_cons_of_mem _ hx)
        rw [← ih (col + 1)] at this
        rw [this] at hl
        exact absurd hl (by simp)
    | none =>
      have hrest := (ih (col + 1)).mp hl
      by_cases hc : cellMatches s e c
      · simp only [hc, if_true]
        constructor
        · intro h; exact absurd h (by simp)
        · intro h; exact absurd hc (h c (List.mem_cons_self c rest))
      · simp only [hc, if_false, List.mem_cons, true_iff]
        intro x hx
        rcases hx with hx | hx
        · subst hx; exact hc
        · exact hrest x hx

theorem firstMatchCol_spec (s e : Nat) (cells : List (Nat × Int)) (col a : Nat)
    (h : firstMatchCol s e cells col = some a) :
    ∃ i, ∃ hi : i < cells.length, a = col + i ∧ cellMatches s e (cells.get ⟨i, hi⟩) ∧
      ∀ j, ∀ hj : j < cells.length, cellMatches s e (cells.get ⟨j, hj⟩) → a ≤ col + j := by
  induction cells generalizing col with
  | nil => simp [firstMatchCol] at h
  | cons c rest ih =>
    rw [firstMatchCol] at h
    by_cases hc : cellMatches s e c
    · rw [if_pos hc, Option.some.injEq] at h
      subst h
      refine ⟨0, by simp, by omega, by simpa using hc, ?_⟩
      intro j hj _
      omega
    · rw [if_neg hc] at h
      obtain ⟨i, hi, ha, hmatch, hmin⟩ := ih (col + 1) h
      refine ⟨i + 1, by simpa using hi, by omega, by simpa using hmatch, ?_⟩
      intro j hj hmj
      cases j with
      | zero => exact absurd (by simpa using hmj) hc
      | succ j' =>
        have := hmin j' (by simpa using hj) (by simpa using hmj)
        omega

theorem lastMatchCol_spec (s e : Nat) (cells : List (Nat × Int)) (col b : Nat)
    (h : lastMatchCol s e cells col = some b) :
    ∃ k, ∃ hk : k < cells.length, b = col + k ∧ cellMatches s e (cells.get ⟨k, hk⟩) ∧
      ∀ j, ∀ hj : j < cells.length, cellMatches s e (cells.get ⟨j, hj⟩) → col + j ≤ b := by
  induction cells generalizing col with
  | nil => simp [lastMatchCol] at h
  | cons c rest ih =>
    rw [lastMatchCol] at h
    cases hl : lastMatchCol s e rest (col + 1) with
    | some k =>
      rw [hl, Option.some.injEq] at h
      subst h
      obtain ⟨k', hk', hb, hmatch, hmax⟩ := ih (col + 1) hl
      refine ⟨k' + 1, by simpa using hk', by omega, by simpa using hmatch, ?_⟩
      intro j hj hmj
      cases j with
      | zero => omega
      | succ j' =>
        have := hmax j' (by simpa using hj) (by simpa using hmj)
        omega
    | none =>
      rw [hl] at h
      have hrest := (lastMatchCol_eq_none_iff s e rest (col + 1)).mp hl
      by_cases hc : cellMatches s e c
      · rw [if_pos hc, Option.some.injEq] at h
        subst h
        refine ⟨0, by simp, by omega, by simpa using hc, ?_⟩
        intro j hj hmj
        cases j with
        | zero => omega
        | succ j' =>
          have hj' : j' < rest.length := by simpa using hj
          have hmj' : cellMatches s e (rest.get ⟨j', hj'⟩) := by simpa using hmj
          exact absurd hmj' (hrest _ (rest.get_mem j' hj'))
      · rw [if_neg hc] at h
        exact absurd h (by simp)

/-! ### Week-level and positions-level characterization -/

/-- Whether a week contains a cell counting toward the event. -/
def weekHasMatch (start_day end_day : Nat) (week : List (Nat × Int)) : Bool :=
  week.any (fun c => decide (cellMatches start_day end_day c))

theorem weekHasMatch_iff (s e : Nat) (w : List (Nat × Int)) :
    weekHasMatch s e w = true ↔ ∃ c ∈ w, cellMatches s e c := by
  unfold weekHasMatch
  simp [List.any_eq_true]

theorem scan_none_iff (s e : Nat) (w : List (Nat × Int)) :
    scanWeekAux s e w 0 none = none ↔ ∀ c ∈ w, ¬ cellMatches s e c := by
  rw [scanWeekAux_none]
  constructor
  · intro h c hc hmc
    cases hf : firstMatchCol s e w 0 with
    | none => exact (firstMatchCol_eq_none_iff s e w 0).mp hf c hc hmc
    | some a =>
      cases hl : lastMatchCol s e w 0 with
      | none => exact (lastMatchCol_eq_none_iff s e w 0).mp hl c hc hmc
      | some b => rw [hf, hl] at h; simp at h
  · intro h
    rw [(firstMatchCol_eq_none_iff s e w 0).mpr h,
      (lastMatchCol_eq_none_iff s e w 0).mpr h]

theorem scan_ne_none_iff (s e : Nat) (w : List (Nat × Int)) :
    scanWeekAux s e w 0 none ≠ none ↔ weekHasMatch s e w = true := by
  rw [Ne, scan_none_iff, weekHasMatch_iff]
  push_neg
  simp

theorem eventWeekTriple_eq_some (s e : Nat) (rw : Nat × List (Nat × Int))
    (t0 : Nat × Nat × Nat) (h : eventWeekTriple s e rw = some t0) :
    t0.1 = rw.1 ∧ scanWeekAux s e rw.2 0 none = some (t0.2.1, t0.2.2) := by
  unfold eventWeekTriple at h
  cases hscan : scanWeekAux s e rw.2 0 none with
  | none => rw [hscan] at h; simp at h
  | some p =>
    rw [hscan] at h
    cases p with
    | mk sc ec =>
      simp only [Option.some.injEq] at h
      subst h
      exact ⟨rfl, rfl⟩

theorem eventWeekTriple_eq_none (s e : Nat) (rw : Nat × List (Nat × Int))
    (h : eventWeekTriple s e rw = none) :
    scanWeekAux s e rw.2 0 none = none := by
  unfold eventWeekTriple at h
  cases hscan : scanWeekAux s e rw.2 0 none with
  | none => rfl
  | some p =>
    rw [hscan] at h
    cases p with
    | mk sc ec => simp at h

theorem triples_mem (s e : Nat) (weeks : List (List (Nat × Int))) (n : Nat) :
    ∀ t ∈ (List.enumFrom n weeks).filterMap (eventWeekTriple s e),
      n ≤ t.1 ∧ t.1 - n < weeks.length ∧
      scanWeekAux s e (weeks.getD (t.1 - n) []) 0 none = some (t.2.1, t.2.2) := by
  induction weeks generalizing n with
  | nil => intro t ht; simp [List.enumFrom] at ht
  | cons w rest ih =>
    intro t ht
    simp only [List.enumFrom, List.filterMap_cons] at ht
    cases hscan : eventWeekTriple s e (n, w) with
    | none =>
      rw [hscan] at ht
      obtain ⟨h1, h2, h3⟩ := ih (n + 1) t ht
      refine ⟨by omega, by simp only [List.length_cons]; omega, ?_⟩
      rw [show t.1 - n = (t.1 - (n + 1)) + 1 by omega, List.getD_cons_succ]
      exact h3
    | some t0 =>
      rw [hscan] at ht
      rcases List.mem_cons.mp ht with h | h
      · subst h
        obtain ⟨h1, h2⟩ := eventWeekTriple_eq_some s e (n, w) t hscan
        have h1' : t.1 = n := h1
        refine ⟨by omega, by simp only [List.length_cons]; omega, ?_⟩
        rw [show t.1 - n = 0 by omega, List.getD_cons_zero]
        exact h2
      · obtain ⟨h1, h2, h3⟩ := ih (n + 1) t h
        refine ⟨by omega, by simp only [List.length_cons]; omega, ?_⟩
        rw [show t.1 - n = (t.1 - (n + 1)) + 1 by omega, List.getD_cons_succ]
        exact h3

theorem triples_exists_iff (s e : Nat) (weeks : List (List (Nat × Int))) (n r : Nat) :
    (∃ t ∈ (List.enumFrom n weeks).filterMap (eventWeekTriple s e), t.1 = r) ↔
    (n ≤ r ∧ r - n < weeks.length ∧
      weekHasMatch s e (weeks.getD (r - n) []) = true) := by
  induction weeks generalizing n with
  | nil => simp [List.enumFrom]
  | cons w rest ih =>
    simp only [List.enumFrom, List.filterMap_cons]
    cases hscan : eventWeekTriple s e (n, w) with
    | some t0 =>
      have ht0 : t0.1 = n := (eventWeekTriple_eq_some s e (n, w) t0 hscan).1
      have hscan2 : scanWeekAux s e w 0 none = some (t0.2.1, t0.2.2) :=
        (eventWeekTriple_eq_some s e (n, w) t0 hscan).2
      have hmatch : weekHasMatch s e w = true := by
        rw [← scan_ne_none_iff]
        intro hc
        rw [hscan2] at hc
        exact Option.noConfusion hc
      by_cases hr : r = n
      · subst hr
        constructor
        · intro _
          exact ⟨le_rfl, by simp, by rw [Nat.sub_self, List.getD_cons_zero]; exact hmatch⟩
        · intro _
          exact ⟨t0, List.mem_cons_self _ _, ht0⟩
      · constructor
        · rintro ⟨t, ht, htr⟩
          rcases List.mem_cons.mp ht with h | h
          · subst h; exact absurd (ht0.symm.trans htr) (fun hcontra => hr hcontra.symm)
          · obtain ⟨h1, h2, h3⟩ := (ih (n + 1)).mp ⟨t, h, htr⟩
            refine ⟨by omega, by simp only [List.length_cons]; omega, ?_⟩
            rw [show r - n = (r - (n + 1)) + 1 by omega, List.getD_cons_succ]
            exact h3
        · rintro ⟨h1, h2, h3⟩
          have h1' : n + 1 ≤ r := by omega
          rw [show r - n = (r - (n + 1)) + 1 by omega, List.getD_cons_succ] at h3
          obtain ⟨t, ht, htr⟩ := (ih (n + 1)).mpr
            ⟨h1', by simp only [List.length_cons] at h2; omega, h3⟩
          exact ⟨t, List.mem_cons_of_mem _ ht, htr⟩
    | none =>
      have hnomatch : weekHasMatch s e w ≠ true := by
        intro hc
        rw [← scan_ne_none_iff] at hc
        exact hc (eventWeekTriple_eq_none s e (n, w) hscan)
      by_cases hr : r = n
      · constructor
        · rintro ⟨t, ht, htr⟩
          obtain ⟨h1, _, _⟩ := (ih (n + 1)).mp ⟨t, ht, htr⟩
          omega
        · rintro ⟨_, _, h3⟩
          rw [show r - n = 0 by omega, List.getD_cons_zero] at h3
          exact absurd h3 hnomatch
      · rw [ih (n + 1)]
        constructor
        · rintro ⟨h1, h2, h3⟩
          refine ⟨by omega, by simp only [List.length_cons]; omega, ?_⟩
          rw [show r - n = (r - (n + 1)) + 1 by omega, List.getD_cons_succ]
          exact h3
        · rintro ⟨h1, h2, h3⟩
          rw [show r - n = (r - (n + 1)) + 1 by omega, List.getD_cons_succ] at h3
          refine ⟨by omega, ?_, h3⟩
          simp only [List.length_cons] at h2
          omega

theorem triples_pairwise (s e : Nat) (weeks : List (List (Nat × Int))) (n : Nat) :
    List.Pairwise (fun t1 t2 => t1.1 < t2.1)
      ((List.enumFrom n weeks).filterMap (eventWeekTriple s e)) := by
  induction weeks generalizing n with
  | nil => simp [List.enumFrom]
  | cons w rest ih =>
    simp only [List.enumFrom, List.filterMap_cons]
    cases hscan : eventWeekTriple s e (n, w) with
    | none => exact ih (n + 1)
    | some t0 =>
      refine List.Pairwise.cons ?_ (ih (n + 1))
      intro t ht
      have ht1 : t0.1 = n := (eventWeekTriple_eq_some s e (n, w) t0 hscan).1
      have := (triples_mem s e rest (n + 1) t ht).1
      omega

/-! ### Locating cells inside the grid -/

theorem calendarCells_get_eq (year month : Nat) (i : Nat)
    (hi : i < (calendarCells year month).length) :
    (calendarCells year month).get ⟨i, hi⟩ =
      if i < firstDow year month then
        (prevDays year month - firstDow year month + 1 + i, (-1 : Int))
      else if i < firstDow year month + daysInMonth year month then
        (i - firstDow year month + 1, (0 : Int))
      else
        (i - firstDow year month - daysInMonth year month + 1, (1 : Int)) := by
  rw [List.get_eq_getElem]
  unfold calendarCells at hi ⊢
  by_cases h2 : i < firstDow year month + daysInMonth year month
  · rw [List.getElem_append_left
      (by simp only [List.length_append, List.length_map, List.length_range]; omega)]
    by_cases h1 : i < firstDow year month
    · rw [List.getElem_append_left (by simpa using h1), List.getElem_map,
        List.getElem_range, if_pos h1]
    · rw [List.getElem_append_right (by simpa using h1), List.getElem_map,
        List.getElem_range, if_neg h1, if_pos h2]
      simp only [List.length_map, List.length_range]
  · rw [List.getElem_append_right
      (by simp only [List.length_append, List.length_map, List.length_range]; omega),
      List.getElem_map, List.getElem_range]
    have h1 : ¬ i < firstDow year month := by omega
    rw [if_neg h1, if_neg h2]
    simp only [List.length_append, List.length_map, List.length_range]
    have harith : i - (firstDow year month + daysInMonth year month)
        = i - firstDow year month - daysInMonth year month := by omega
    rw [harith]

theorem calendarCells_match_iff (year month s e : Nat) (i : Nat)
    (hi : i < (calendarCells year month).length) :
    (cellMatches s e ((calendarCells year month).get ⟨i, hi⟩) ↔
      (firstDow year month ≤ i ∧ i < firstDow year month + daysInMonth year month ∧
       s ≤ i - firstDow year month + 1 ∧ i - firstDow year month + 1 ≤ e)) := by
  rw [calendarCells_get_eq year month i hi]
  by_cases h1 : i < firstDow year month
  · rw [if_pos h1]
    simp only [cellMatches]
    constructor
    · rintro ⟨hoff, -⟩
      exact absurd hoff (by decide)
    · rintro ⟨hf, -⟩
      omega
  · rw [if_neg h1]
    by_cases h2 : i < firstDow year month + daysInMonth year month
    · rw [if_pos h2]
      simp only [cellMatches]
      constructor
      · rintro ⟨-, hs, he⟩
        exact ⟨by omega, h2, hs, he⟩
      · rintro ⟨-, -, hs, he⟩
        exact ⟨trivial, hs, he⟩
    · rw [if_neg h2]
      simp only [cellMatches]
      constructor
      · rintro ⟨hoff, -⟩
        exact absurd hoff (by decide)
      · rintro ⟨-, hf, -⟩
        omega

theorem chunkWeeksAux_getD (fuel : Nat) (cells : List (Nat × Int))
    (hf : cells.length ≤ fuel) (r : Nat) :
    (chunkWeeksAux fuel cells).getD r [] = (cells.drop (7 * r)).take 7 := by
  induction fuel generalizing cells r with
  | zero =>
    cases cells with
    | nil => simp [chunkWeeksAux]
    | cons c rest => simp at hf
  | succ fuel ih =>
    cases cells with
    | nil => simp [chunkWeeksAux]
    | cons c rest =>
      cases r with
      | zero => simp [chunkWeeksAux]
      | succ r' =>
        simp only [chunkWeeksAux, List.getD_cons_succ]
        rw [ih ((c :: rest).drop 7)
          (by simp only [List.length_drop, List.length_cons] at hf ⊢; omega) r',
          List.drop_drop]
        congr 2
        omega

theorem chunkWeeks_getD (cells : List (Nat × Int)) (r : Nat) :
    (chunkWeeks cells).getD r [] = (cells.drop (7 * r)).take 7 :=
  chunkWeeksAux_getD cells.length cells le_rfl r

/-- In the grid of `(year, month)`, week `r` contains a cell counting
toward `[s, e]` (with `1 ≤ s ≤ e ≤ daysInMonth`) iff `r` lies between the
row of day `s` and the row of day `e`. -/
theorem grid_weekHasMatch_iff (year month s e r : Nat)
    (hs : 1 ≤ s) (hse : s ≤ e) (he : e ≤ daysInMonth year month) :
    (weekHasMatch s e ((build_simple_calendar year month).getD r []) = true ↔
      ((firstDow year month + s - 1) / 7 ≤ r ∧
       r ≤ (firstDow year month + e - 1) / 7)) := by
  have hlen := calendarCells_length year month
  rw [build_simple_calendar, chunkWeeks_getD, weekHasMatch_iff]
  constructor
  · rintro ⟨c, hc, hmc⟩
    rw [List.mem_iff_getElem] at hc
    obtain ⟨j, hj, hcj⟩ := hc
    have hj' : j < 7 ∧ 7 * r + j < (calendarCells year month).length := by
      simp only [List.length_take, List.length_drop] at hj
      omega
    have hidx : 7 * r + j < (calendarCells year month).length := hj'.2
    have hcell : (((calendarCells year month).drop (7 * r)).take 7).get ⟨j, hj⟩
        = (calendarCells year month).get ⟨7 * r + j, hidx⟩ := by
      simp [List.get_eq_getElem, List.getElem_take, List.getElem_drop]
    rw [← hcj] at hmc
    rw [List.get_eq_getElem, List.get_eq_getElem] at hcell
    rw [hcell] at hmc
    have hmc' : cellMatches s e ((calendarCells year month).get ⟨7 * r + j, hidx⟩) := hmc
    rw [calendarCells_match_iff year month s e _ hidx] at hmc'
    omega
  · rintro ⟨hr1, hr2⟩
    have hi0 : max (7 * r) (firstDow year month + s - 1)
        < (calendarCells year month).length := by omega
    refine ⟨(calendarCells year month).get
      ⟨max (7 * r) (firstDow year month + s - 1), hi0⟩, ?_, ?_⟩
    · rw [List.mem_iff_getElem]
      have hj0 : max (7 * r) (firstDow year month + s - 1) - 7 * r
          < (((calendarCells year month).drop (7 * r)).take 7).length := by
        simp only [List.length_take, List.length_drop]
        omega
      refine ⟨max (7 * r) (firstDow year month + s - 1) - 7 * r, hj0, ?_⟩
      simp only [List.getElem_take, List.getElem_drop, List.get_eq_getElem]
      congr 1
      omega
    · rw [calendarCells_match_iff year month s e _ hi0]
      omega

/-- Number of weeks of the grid exceeds the row of the last event day. -/
theorem grid_row_lt_numWeeks (year month e : Nat) (he1 : 1 ≤ e)
    (he : e ≤ daysInMonth year month) :
    (firstDow year month + e - 1) / 7 < (build_simple_calendar year month).length := by
  rw [build_simple_calendar, chunkWeeks_length _ (calendarCells_length_mod year month)]
  have hlen := calendarCells_length year month
  have hmod := calendarCells_length_mod year month
  omega

/-- C6: `find_event_position` returns a triple exactly for the weeks
containing a CURRENT-month cell with day in the event range (at most one
triple per week, in increasing week order); each triple's start/end
columns are the minimum and maximum matching column of that week, both in
[0, 6]; and an event whose range spans exactly one week boundary yields
exactly 2 triples with distinct week indexes. -/
theorem claim_C6 (year month : Nat) (hy : 1 ≤ year)
    (hm1 : 1 ≤ month) (hm2 : month ≤ 12) (ev : Event) (hs : 1 ≤ ev.start)
    (hse : ev.start ≤ ev.endDay.getD ev.start)
    (he : ev.endDay.getD ev.start ≤ daysInMonth year month) :
    (∀ r, r < (build_simple_calendar year month).length →
      ((∃ t ∈ find_event_position ev (build_simple_calendar year month), t.1 = r) ↔
        ∃ c ∈ (build_simple_calendar year month).getD r [],
          cellMatches ev.start (ev.endDay.getD ev.start) c)) ∧
    List.Pairwise (fun t1 t2 => t1.1 < t2.1)
      (find_event_position ev (build_simple_calendar year month)) ∧
    (∀ t ∈ find_event_position ev (build_simple_calendar year month),
      t.1 < (build_simple_calendar year month).length ∧
      t.2.1 ≤ 6 ∧ t.2.2 ≤ 6 ∧
      (∃ hc : t.2.1 < ((build_simple_calendar year month).getD t.1 []).length,
        cellMatches ev.start (ev.endDay.getD ev.start)
          (((build_simple_calendar year month).getD t.1 []).get ⟨t.2.1, hc⟩)) ∧
      (∃ hc : t.2.2 < ((build_simple_calendar year month).getD t.1 []).length,
        cellMatches ev.start (ev.endDay.getD ev.start)
          (((build_simple_calendar year month).getD t.1 []).get ⟨t.2.2, hc⟩)) ∧
      (∀ j, ∀ hj : j < ((build_simple_calendar year month).getD t.1 []).length,
        cellMatches ev.start (ev.endDay.getD ev.start)
          (((build_simple_calendar year month).getD t.1 []).get ⟨j, hj⟩) →
        t.2.1 ≤ j ∧ j ≤ t.2.2)) ∧
    ((firstDow year month + ev.endDay.getD ev.start - 1) / 7
        = (firstDow year month + ev.start - 1) / 7 + 1 →
      (find_event_position ev (build_simple_calendar year month)).length = 2 ∧
      ∃ t1 t2, find_event_position ev (build_simple_calendar year month) = [t1, t2]
        ∧ t1.1 ≠ t2.1) := by
  have hfep : find_event_position ev (build_simple_calendar year month)
      = (List.enumFrom 0 (build_simple_calendar year month)).filterMap
          (eventWeekTriple ev.start (ev.endDay.getD ev.start)) := rfl
  refine ⟨?_, ?_, ?_, ?_⟩
  · -- (a) a triple exists for week r iff week r has a matching cell
    intro r hr
    rw [hfep, triples_exists_iff]
    simp only [Nat.sub_zero, Nat.zero_le, true_and]
    constructor
    · rintro ⟨-, h3⟩
      exact (weekHasMatch_iff _ _ _).mp h3
    · intro hc
      exact ⟨hr, (weekHasMatch_iff _ _ _).mpr hc⟩
  · -- pairwise increasing week indexes
    rw [hfep]
    exact triples_pairwise _ _ _ 0
  · -- (b) columns are the min and max matching columns, within [0, 6]
    intro t ht
    rw [hfep] at ht
    obtain ⟨-, h2, h3⟩ := triples_mem _ _ _ 0 t ht
    rw [Nat.sub_zero] at h2 h3
    have hwmem : (build_simple_calendar year month).getD t.1 []
        ∈ build_simple_calendar year month := by
      rw [List.getD_eq_getElem _ _ h2]
      exact List.mem_iff_getElem.mpr ⟨t.1, h2, rfl⟩
    have hw7 : ((build_simple_calendar year month).getD t.1 []).length = 7 :=
      chunkWeeks_mem_length (calendarCells year month)
        (calendarCells_length_mod year month) _ hwmem
    rw [scanWeekAux_none] at h3
    cases hf : firstMatchCol ev.start (ev.endDay.getD ev.start)
        ((build_simple_calendar year month).getD t.1 []) 0 with
    | none => rw [hf] at h3; simp at h3
    | some a =>
      cases hl : lastMatchCol ev.start (ev.endDay.getD ev.start)
          ((build_simple_calendar year month).getD t.1 []) 0 with
      | none => rw [hf, hl] at h3; simp at h3
      | some b =>
        rw [hf, hl] at h3
        simp only [Option.some.injEq, Prod.mk.injEq] at h3
        obtain ⟨ha, hb⟩ := h3
        obtain ⟨i, hi, hai, hmi, hmin⟩ := firstMatchCol_spec _ _ _ _ _ hf
        obtain ⟨k, hk, hbk, hmk, hmax⟩ := lastMatchCol_spec _ _ _ _ _ hl
        rw [Nat.zero_add] at hai hbk
        refine ⟨h2, by omega, by omega, ?_, ?_, ?_⟩
        · rw [← ha, hai]
          exact ⟨hi, hmi⟩
        · rw [← hb, hbk]
          exact ⟨hk, hmk⟩
        · intro j hj hmj
          have hl1 := hmin j hj hmj
          have hl2 := hmax j hj hmj
          omega
  · -- (c) an event spanning exactly one week boundary yields 2 triples
    intro hboundary
    have hnum := grid_row_lt_numWeeks year month (ev.endDay.getD ev.start)
      (by omega) he
    have hmemL : ∀ x,
        (x ∈ (find_event_position ev (build_simple_calendar year month)).map
          (fun t => t.1))
        ↔ (x = (firstDow year month + ev.start - 1) / 7 ∨
           x = (firstDow year month + ev.start - 1) / 7 + 1) := by
      intro x
      rw [List.mem_map]
      constructor
      · rintro ⟨t, ht, htx⟩
        have hiff := (triples_exists_iff ev.start (ev.endDay.getD ev.start)
          (build_simple_calendar year month) 0 x).mp ⟨t, by rwa [← hfep], htx⟩
        rw [Nat.sub_zero] at hiff
        have hmatch := (grid_weekHasMatch_iff year month ev.start
          (ev.endDay.getD ev.start) x hs hse he).mp hiff.2.2
        omega
      · intro hx
        have hx' : (firstDow year month + ev.start - 1) / 7 ≤ x ∧
            x ≤ (firstDow year month + ev.endDay.getD ev.start - 1) / 7 := by
          omega
        have hlt : x < (build_simple_calendar year month).length := by omega
        have hmatch := (grid_weekHasMatch_iff year month ev.start
          (ev.endDay.getD ev.start) x hs hse he).mpr hx'
        obtain ⟨t, ht, htx⟩ := (triples_exists_iff ev.start
          (ev.endDay.getD ev.start) (build_simple_calendar year month) 0 x).mpr
          ⟨Nat.zero_le x, by rwa [Nat.sub_zero], by rwa [Nat.sub_zero]⟩
        exact ⟨t, by rwa [hfep], htx⟩
    have hpw : List.Pairwise (· < ·)
        ((find_event_position ev (build_simple_calendar year month)).map
          (fun t => t.1)) := by
      rw [List.pairwise_map, hfep]
      exact triples_pairwise _ _ _ 0
    have hnodup : ((find_event_position ev (build_simple_calendar year month)).map
        (fun t => t.1)).Nodup :=
      hpw.imp (fun h => Nat.ne_of_lt h)
    have hfin : ((find_event_position ev (build_simple_calendar year month)).map
        (fun t => t.1)).toFinset
        = {(firstDow year month + ev.start - 1) / 7,
           (firstDow year month + ev.start - 1) / 7 + 1} := by
      apply Finset.ext
      intro x
      rw [List.mem_toFinset, hmemL x, Finset.mem_insert, Finset.mem_singleton]
    have hlen2 : (find_event_position ev (build_simple_calendar year month)).length
        = 2 := by
      have hmap : ((find_event_position ev
          (build_simple_calendar year month)).map (fun t => t.1)).length
          = (find_event_position ev (build_simple_calendar year month)).length :=
        List.length_map _ _
      rw [← hmap, ← List.toFinset_card_of_nodup hnodup, hfin,
        Finset.card_pair (by omega)]
    refine ⟨hlen2, ?_⟩
    cases hpos : find_event_position ev (build_simple_calendar year month) with
    | nil => rw [hpos] at hlen2; simp at hlen2
    | cons t1 tl =>
      cases tl with
      | nil => rw [hpos] at hlen2; simp at hlen2
      | cons t2 tl2 =>
        cases tl2 with
        | cons t3 tl3 => rw [hpos] at hlen2; simp at hlen2
        | nil =>
          refine ⟨t1, t2, rfl, ?_⟩
          rw [hpos] at hpw
          simp only [List.map_cons, List.map_nil, List.pairwise_cons,
            List.mem_cons, List.mem_singleton] at hpw
          have := hpw.1 t2.1 (by simp)
          omega

/-- Witness for C6: the event days 1-2 of March 2026 (which starts on a
Sunday) span exactly one week boundary and produce exactly two triples
with distinct week indexes. -/
theorem claim_C6_witness :
    ((1 : Nat) ≤ 2026 ∧ (1 : Nat) ≤ 3 ∧ (3 : Nat) ≤ 12 ∧
     (1 : Nat) ≤ (Event.mk 1 (some 2) "Sale").start ∧
     (Event.mk 1 (some 2) "Sale").start
       ≤ (Event.mk 1 (some 2) "Sale").endDay.getD (Event.mk 1 (some 2) "Sale").start ∧
     (Event.mk 1 (some 2) "Sale").endDay.getD (Event.mk 1 (some 2) "Sale").start
       ≤ daysInMonth 2026 3 ∧
     (firstDow 2026 3 + (Event.mk 1 (some 2) "Sale").endDay.getD
        (Event.mk 1 (some 2) "Sale").start - 1) / 7
       = (firstDow 2026 3 + (Event.mk 1 (some 2) "Sale").start - 1) / 7 + 1) ∧
    ((find_event_position (Event.mk 1 (some 2) "Sale")
        (build_simple_calendar 2026 3)).length = 2 ∧
     ∃ t1 t2, find_event_position (Event.mk 1 (some 2) "Sale")
        (build_simple_calendar 2026 3) = [t1, t2] ∧ t1.1 ≠ t2.1) :=
  ⟨⟨by decide, by decide, by decide, by decide, by decide, by decide, by decide⟩,
   (claim_C6 2026 3 (by decide) (by decide) (by decide)
     (Event.mk 1 (some 2) "Sale") (by decide) (by decide) (by decide)).2.2.2
     (by decide)⟩

end TielsCalendar
